import Mathlib

/-!
Verification of the `simple_re2` virtual machine (`src/simple_re2/vm.py`).

The Python source is shallowly embedded below.  Stateful loops (the
`while` loops of `WorkQueue.add`, `_run_on_byte` and `run`) become fueled
recursive functions returning `Option (Except Err _)`: `none` means the
loop did not finish within the given fuel, `some (.error e)` means the
Python code raised an exception (`IndexError` from a list subscript, or
`AssertionError` from a failed `assert`), and `some (.ok v)` is a normal
return.  Python's `list` indexing, including its negative-index
wrap-around (`instrs[ip - 1]` at `ip = 0` reads the LAST instruction of
the array), is modelled by `pyNth` / `pyNthI`.
-/

/-- The two exception kinds the VM code can raise: `IndexError` from a
list subscript out of range, `AssertionError` from a failed `assert`. -/
inductive Err
  | indexError
  | assertionError
deriving DecidableEq, Repr

/-- The per-instruction sublist indicator: `"+"` (`cont`, more
alternatives follow in the sublist) or `"."` (`last`, final member of
its sublist). -/
inductive Indicator
  | cont
  | last
deriving DecidableEq, Repr

/-- The instruction set of `vm.py` (classes `InstrByteRange`,
`InstrMatch`, `InstrNop`, `InstrCapture`).  The inert `kw` string field
of the Python classes is omitted: it is never read by the VM. -/
inductive Instruction
  | instrByteRange (indicator : Indicator) (min max : Nat) (hint : Nat) (out : Nat)
  | instrMatch (indicator : Indicator)
  | instrNop (indicator : Indicator) (out : Nat)
  | instrCapture (indicator : Indicator) (sp_buf_index : Nat) (out : Nat)
deriving DecidableEq, Repr

/-- The `indicator` attribute shared by all instruction classes. -/
def Instruction.indicator : Instruction → Indicator
  | .instrByteRange ind _ _ _ _ => ind
  | .instrMatch ind => ind
  | .instrNop ind _ => ind
  | .instrCapture ind _ _ => ind

/-- Python `l[i]` for a non-negative index: `IndexError` when out of range. -/
def pyNth {α : Type} (l : List α) (i : Nat) : Except Err α :=
  match l.get? i with
  | some a => .ok a
  | none => .error .indexError

/-- Python `l[i]` for a possibly negative index: a negative `i` with
`-l.length ≤ i` wraps around to `l[l.length + i]`. -/
def pyNthI {α : Type} (l : List α) (i : Int) : Except Err α :=
  if 0 ≤ i then pyNth l i.toNat
  else if 0 ≤ (l.length : Int) + i then pyNth l ((l.length : Int) + i).toNat
  else .error .indexError

/-- The VM's `WorkQueue`: the insertion-ordered keys of
`self.ordered_dict` (the recorded sublist heads) plus the
`contains_InstrMatch` flag.  Only the keys of the ordered dict are ever
read (`to_list`, the duplicate test), so the values are not modelled. -/
structure WorkQueue where
  heads : List Nat
  contains_InstrMatch : Bool
deriving DecidableEq, Repr

/-- The head-of-sublist test and recording of `WorkQueue.add` (vm.py
lines 79-82): `ip` is recorded as a queue head iff
`instrs[ip - 1].indicator == "."` (note the Python negative-index
wrap-around at `ip = 0`). -/
def recordHead (instrs : List Instruction) (ip : Nat) (q : WorkQueue) :
    Except Err WorkQueue :=
  match pyNthI instrs ((ip : Int) - 1) with
  | .error e => .error e
  | .ok prev =>
    if prev.indicator = .last then .ok { q with heads := q.heads ++ [ip] } else .ok q

/-- One non-duplicate iteration of the `while` loop body of
`WorkQueue.add` (vm.py lines 79-108): the head-of-sublist recording,
then the dispatch on the instruction type.  Returns the new current
pointer, pending stack and queue. -/
def addStep (instrs : List Instruction) (ip : Nat) (instr : Instruction) (stk : List Nat)
    (q : WorkQueue) : Except Err (Option Nat × List Nat × WorkQueue) :=
  match recordHead instrs ip q with
  | .error e => .error e
  | .ok q1 =>
    match instr with
    | .instrCapture ind _ out =>
      .ok (some out, (if ind = .cont then (ip + 1) :: stk else stk), q1)
    | .instrNop ind out =>
      .ok (some out, (if ind = .cont then (ip + 1) :: stk else stk), q1)
    | .instrByteRange ind _ _ _ _ =>
      if ind = .last then .ok (none, stk, q1)
      else .ok (some (ip + 1), stk, q1)
    | .instrMatch ind =>
      if ind = .last then .ok (none, stk, { q1 with contains_InstrMatch := true })
      else .error .assertionError

/-- The fueled `while` loop of `WorkQueue.add` (vm.py lines 69-108).
State: the optional current pointer `ipo` (`ip` in the source, with
`None` forcing a pop), the explicit pending stack `stk` (`ip_stack`) and
the queue `q` (`self`).  The source fetches `instrs[ip]` BEFORE the
duplicate test, so the fetch (and its possible `IndexError`) is modelled
first. -/
def addLoop (instrs : List Instruction) : Nat → Option Nat → List Nat → WorkQueue →
    Option (Except Err WorkQueue)
  | 0, _, _, _ => none
  | _ + 1, none, [], q => some (.ok q)
  | fuel + 1, none, ip :: stk, q => addLoop instrs fuel (some ip) stk q
  | fuel + 1, some ip, stk, q =>
    match pyNth instrs ip with
    | .error e => some (.error e)
    | .ok instr =>
      if ip ∈ q.heads then addLoop instrs fuel none stk q
      else
        match addStep instrs ip instr stk q with
        | .error e => some (.error e)
        | .ok (ipo2, stk2, q2) => addLoop instrs fuel ipo2 stk2 q2

/-- `WorkQueue.add(ip, instrs)`: run the closure walk from seed `ip`
with an empty pending stack. -/
def WorkQueue.add (q : WorkQueue) (instrs : List Instruction) (fuel ip : Nat) :
    Option (Except Err WorkQueue) :=
  addLoop instrs fuel (some ip) [] q

/-- `WorkQueue.to_list()`: the insertion-ordered recorded heads. -/
def WorkQueue.to_list (q : WorkQueue) : List Nat := q.heads

/-- `WorkQueue.is_empty()`. -/
def WorkQueue.is_empty (q : WorkQueue) : Bool := q.heads.isEmpty

/-- The fresh/cleared work queue (`WorkQueue.__init__` / `clear`). -/
def WorkQueue.empty : WorkQueue := ⟨[], false⟩

/-- The hint-free fallback scan of `_run_on_byte` (vm.py lines 146-148):
`while instr.indicator == "+": i += 1; instr = instrs[clist[i]]`.
Returns the final value of `i`. -/
def scanLoop (instrs : List Instruction) (clist : List Nat) : Nat → Instruction → Nat →
    Option (Except Err Nat)
  | 0, _, _ => none
  | fuel + 1, instr, i =>
    if instr.indicator = .cont then
      match pyNth clist (i + 1) with
      | .error e => some (.error e)
      | .ok ip2 =>
        match pyNth instrs ip2 with
        | .error e => some (.error e)
        | .ok instr2 => scanLoop instrs clist fuel instr2 (i + 1)
    else some (.ok i)

/-- The fueled cursor loop of `_run_on_byte` (vm.py lines 121-154) over
the active list `clist`, populating the next queue `nq` for input byte
`c`.  Encountering `InstrMatch` returns early (only the first match per
step matters); a satisfied `InstrByteRange` closes over its `out` and
then skips the cursor by `hint - 1` entries (plus the common `i += 1`),
or scans forward while the indicator is `"+"` when the hint is 0. -/
def runOnByteLoop (instrs : List Instruction) (clist : List Nat) (c : Nat) :
    Nat → Nat → WorkQueue → Option (Except Err WorkQueue)
  | 0, _, _ => none
  | fuel + 1, i, nq =>
    if i < clist.length then
      match pyNth clist i with
      | .error e => some (.error e)
      | .ok ip =>
        match pyNth instrs ip with
        | .error e => some (.error e)
        | .ok instr =>
          match instr with
          | .instrNop _ _ | .instrCapture _ _ _ => runOnByteLoop instrs clist c fuel (i + 1) nq
          | .instrMatch _ => some (.ok nq)
          | .instrByteRange _ mn mx hint _out =>
            if mn ≤ c ∧ c ≤ mx then
              match addLoop instrs fuel (some _out) [] nq with
              | none => none
              | some (.error e) => some (.error e)
              | some (.ok nq2) =>
                if 0 < hint then runOnByteLoop instrs clist c fuel (i + (hint - 1) + 1) nq2
                else
                  match scanLoop instrs clist fuel instr i with
                  | none => none
                  | some (.error e) => some (.error e)
                  | some (.ok i2) => runOnByteLoop instrs clist c fuel (i2 + 1) nq2
            else runOnByteLoop instrs clist c fuel (i + 1) nq
    else some (.ok nq)

/-- `_run_on_byte(instrs, clist, next_q, c)`: the cursor starts at 0. -/
def runOnByte (instrs : List Instruction) (clist : List Nat) (nq : WorkQueue) (c : Nat)
    (fuel : Nat) : Option (Except Err WorkQueue) :=
  runOnByteLoop instrs clist c fuel 0 nq

/-- The driver `while` loop of `run` (vm.py lines 177-184).  One
iteration consumes one input byte: step the current queue into a fresh
next queue, advance `sp`, record `sp` as the best match end when the
next queue's match flag is set, then swap (the swapped-out queue is
cleared, so each iteration steps into a fresh empty queue). -/
def runLoop (instrs : List Instruction) (fuel : Nat) (q : WorkQueue) (sp : Nat)
    (remaining : List Nat) (last : Option Nat) : Option (Except Err (Option Nat)) :=
  if q.is_empty then some (.ok last)
  else
    match remaining with
    | [] => some (.ok last)
    | c :: rest =>
      match runOnByte instrs q.to_list WorkQueue.empty c fuel with
      | none => none
      | some (.error e) => some (.error e)
      | some (.ok nq) =>
        runLoop instrs fuel nq (sp + 1) rest
          (if nq.contains_InstrMatch then some (sp + 1) else last)

/-- `run(prog, input)` (vm.py lines 160-185): prepend the synthetic
entry `Nop` (indicator `"."`, out 1), seed the first queue by closure
from index 0, initialize the best match end to 0 when the initial
closure's match flag is set, then run the driver loop. -/
def runVM (fuel : Nat) (prog : List Instruction) (input : List Nat) :
    Option (Except Err (Option Nat)) :=
  let instrs := Instruction.instrNop .last 1 :: prog
  match (WorkQueue.empty).add instrs fuel 0 with
  | none => none
  | some (.error e) => some (.error e)
  | some (.ok q) =>
    runLoop instrs fuel q 0 input (if q.contains_InstrMatch then some 0 else none)

/-!  ## Epsilon reachability

An independent inductive characterization of the instruction pointers
from which a `Match` instruction is reachable by empty transitions: the
`out` edge (plus the deferred `ip + 1` sibling when the indicator is
`"+"`) of `Nop`/`Capture`, and the `ip + 1` sibling edge of a
`ByteRange` whose indicator is `"+"`. -/

/-- The empty-transition successors of `ip` that `WorkQueue.add` follows. -/
def epsSucc (instrs : List Instruction) (ip : Nat) : List Nat :=
  match instrs.get? ip with
  | some (.instrNop ind out) | some (.instrCapture ind _ out) =>
    if ind = .cont then [out, ip + 1] else [out]
  | some (.instrByteRange ind _ _ _ _) => if ind = .cont then [ip + 1] else []
  | some (.instrMatch _) => []
  | none => []

/-- `ReachMatchN instrs k ip`: from `ip` a `Match` instruction is
reachable in exactly `k` empty transitions. -/
inductive ReachMatchN (instrs : List Instruction) : Nat → Nat → Prop
  | base (ip : Nat) (ind : Indicator) (h : instrs.get? ip = some (.instrMatch ind)) :
      ReachMatchN instrs 0 ip
  | step (k ip s : Nat) (hs : s ∈ epsSucc instrs ip) (h : ReachMatchN instrs k s) :
      ReachMatchN instrs (k + 1) ip

/-- A `Match` instruction is reachable from `ip` by empty transitions. -/
def ReachMatch (instrs : List Instruction) (ip : Nat) : Prop :=
  ∃ k, ReachMatchN instrs k ip

/-- Loop invariant for the completeness direction of the closure walk:
every recorded head whose match-reachability is not yet reflected in the
flag still has a pending witness (an entry of the current pointer /
stack list) with a strictly shorter path to a `Match`. -/
def Jinv (instrs : List Instruction) (pend : List Nat) (q : WorkQueue) : Prop :=
  ∀ h ∈ q.heads, ∀ k, ReachMatchN instrs k h →
    q.contains_InstrMatch = true ∨ ∃ y ∈ pend, ∃ j, j < k ∧ ReachMatchN instrs j y

/-!  ## Ghost-instrumented driver loop

`runLoopTrace` is `runLoop` with a ghost output: the list of successive
values recorded into `last_match_sp` during the loop, in order.
`runVMTrace` additionally prepends the initial recording of position 0
made when the initial closure's match flag is set.  `runLoopTrace`
projects onto `runLoop` (proved below), so the trace is purely
observational. -/

def runLoopTrace (instrs : List Instruction) (fuel : Nat) (q : WorkQueue) (sp : Nat)
    (remaining : List Nat) (last : Option Nat) :
    Option (Except Err (Option Nat × List Nat)) :=
  if q.is_empty then some (.ok (last, []))
  else
    match remaining with
    | [] => some (.ok (last, []))
    | c :: rest =>
      match runOnByte instrs q.to_list WorkQueue.empty c fuel with
      | none => none
      | some (.error e) => some (.error e)
      | some (.ok nq) =>
        if nq.contains_InstrMatch then
          match runLoopTrace instrs fuel nq (sp + 1) rest (some (sp + 1)) with
          | none => none
          | some (.error e) => some (.error e)
          | some (.ok (res, tr)) => some (.ok (res, (sp + 1) :: tr))
        else runLoopTrace instrs fuel nq (sp + 1) rest last

def runVMTrace (fuel : Nat) (prog : List Instruction) (input : List Nat) :
    Option (Except Err (Option Nat × List Nat)) :=
  let instrs := Instruction.instrNop .last 1 :: prog
  match (WorkQueue.empty).add instrs fuel 0 with
  | none => none
  | some (.error e) => some (.error e)
  | some (.ok q) =>
    match runLoopTrace instrs fuel q 0 input (if q.contains_InstrMatch then some 0 else none) with
    | none => none
    | some (.error e) => some (.error e)
    | some (.ok (res, tr)) =>
      some (.ok (res, (if q.contains_InstrMatch then [0] else []) ++ tr))

/-- Re-running `WorkQueue.add` on each element of a list of seeds in
order (used to state closure idempotence). -/
def addAll (instrs : List Instruction) (fuel : Nat) (q : WorkQueue) :
    List Nat → Option (Except Err WorkQueue)
  | [] => some (.ok q)
  | h :: t =>
    match q.add instrs fuel h with
    | none => none
    | some (.error e) => some (.error e)
    | some (.ok q2) => addAll instrs fuel q2 t

/-!  ## Concrete programs used by the claims -/

/-- Modelled from the spec: the test fixture `a_or_eps_or_b.re2asm` is
not part of the sources, so the program encoding the three-way
alternation "consume byte 0x61 ('a') OR consume nothing OR consume byte
0x62 ('b')" followed by `Match` is reconstructed from the spec's
description (§8 concrete scenario, §3 sublist/hint conventions): one
three-member sublist (`+ byte [61-61] 3 -> 4`, `+ nop -> 4`,
`. byte [62-62] 1 -> 4`) followed by `. match!`, targets given in the
indexing that holds after the driver prepends its entry `Nop`. -/
def aOrEpsOrB : List Instruction := [
  .instrByteRange .cont 97 97 3 4,
  .instrNop .cont 4,
  .instrByteRange .last 98 98 1 4,
  .instrMatch .last]

/-- A program whose single sublist holds two `ByteRange` alternatives —
`a` (head, indicator `"+"`) and `b` (indicator `"."`) — both jumping to
`Match`.  Byte-class decomposition per spec §3. -/
def abProg : List Instruction := [
  .instrByteRange .cont 97 97 2 3,
  .instrByteRange .last 98 98 0 3,
  .instrMatch .last]

/-- A program that requires one specific byte (0x61) and then matches. -/
def progA : List Instruction := [
  .instrByteRange .last 97 97 0 2,
  .instrMatch .last]

/-- The encoding of `a*`: a self-referential `ByteRange` looping back to
its own sublist head, with the epsilon exit to `Match`. -/
def aStarProg : List Instruction := [
  .instrByteRange .cont 97 97 0 1,
  .instrNop .last 3,
  .instrMatch .last]

/-- A §3-structurally-valid program (all jump targets in range, every
sublist a run of `"+"` members closed by a `"."` `ByteRange` or `Match`)
whose two `"+"`-indicator `Nop`s (at prepended indices 2 and 5) form an
epsilon cycle that never passes through a sublist head. -/
def cycleProg : List Instruction := [
  .instrByteRange .cont 97 97 3 7,
  .instrNop .cont 5,
  .instrByteRange .last 97 97 0 7,
  .instrByteRange .cont 97 97 3 7,
  .instrNop .cont 2,
  .instrByteRange .last 97 97 0 7,
  .instrMatch .last]

/-- The full (prepended) instruction array of `cycleProg` as `run`
builds it. -/
def cycleInstrs : List Instruction := Instruction.instrNop .last 1 :: cycleProg

/-- A stepping configuration: three sublists — one with three `ByteRange`
alternatives (indices 0-2, head hint 3 = distance to the next sublist
head), then two singleton `ByteRange` sublists (indices 3 and 4) — and a
final `Match`.  The active list `[0, 3, 4]` of sublist heads is exactly
what closure construction records for these three sublists. -/
def hintedInstrs : List Instruction := [
  .instrByteRange .cont 97 97 3 5,
  .instrByteRange .cont 98 98 2 5,
  .instrByteRange .last 99 99 0 5,
  .instrByteRange .last 97 97 0 5,
  .instrByteRange .last 97 97 0 3,
  .instrMatch .last]

/-- `hintedInstrs` with the satisfied head's `hint` replaced by 0,
forcing the linear-scan fallback. -/
def zeroedInstrs : List Instruction := [
  .instrByteRange .cont 97 97 0 5,
  .instrByteRange .cont 98 98 2 5,
  .instrByteRange .last 99 99 0 5,
  .instrByteRange .last 97 97 0 5,
  .instrByteRange .last 97 97 0 3,
  .instrMatch .last]

/-- A malformed program: a dangling jump target (the `Nop`'s `out` is 5,
far past the end). -/
def danglingProg : List Instruction := [.instrNop .last 5]

/-- A malformed program: a `Match` carrying the `"+"` (CONTINUE)
indicator, inconsistent for the last element of a sublist. -/
def badIndicatorProg : List Instruction := [.instrMatch .cont]

/-- A malformed program whose defect is never reached: the `ByteRange`'s
`out` target 99 is dangling, but on empty input no byte is consumed. -/
def unreachedDanglingProg : List Instruction := [
  .instrByteRange .last 97 97 0 99,
  .instrMatch .last]

/-- The immediate-match program: the synthetic entry `Nop` epsilon-chains
directly to `Match`. -/
def immediateProg : List Instruction := [.instrMatch .last]

/-!  ## Theorems -/

/-- C4: the program encoding the alternation "byte 0x61 OR nothing OR
byte 0x62" followed by `Match`, run on the two-byte input 0x61 0x62
("ab"), returns match end 1 (the match covering the leading 'a'). -/
theorem run_aOrEpsOrB_ab_eq_one : runVM 30 aOrEpsOrB [97, 98] = some (.ok (some 1)) := rfl

/-- C1: evaluation at the failing input.  On the two-alternative sublist
`+ byte [61-61]` / `. byte [62-62]` with input byte 0x62, the second
alternative's range contains the byte (third conjunct), yet the stepping
routine adds nothing to the next thread set (first conjunct: the next
queue stays empty) and the whole run returns no match (second
conjunct) — the active list holds only sublist heads, and only heads are
range-tested.  (On byte 0x61, where the head itself is satisfied, the
engine does find the match: fourth conjunct.) -/
theorem stepping_never_tests_sibling_alternative :
    runOnByte (Instruction.instrNop .last 1 :: abProg) [0, 1] WorkQueue.empty 98 30 =
      some (.ok WorkQueue.empty) ∧
    runVM 30 abProg [98] = some (.ok none) ∧
    (Instruction.instrNop .last 1 :: abProg).get? 2 =
      some (.instrByteRange .last 98 98 0 3) ∧
    runVM 30 abProg [97] = some (.ok (some 1)) :=
  ⟨rfl, rfl, rfl, rfl⟩

/-- C2: evaluation at the failing configuration.  Stepping the active
list `[0, 3, 4]` (three sublist heads) on byte 0x61: with the satisfied
head's hint 3 (the program-array distance to the next sublist head) the
cursor jumps over the other two active heads and the next thread set is
`[5]`; with the hint forced to 0 the linear scan stops at the very next
active-list entry and head 4 is still evaluated, giving next thread set
`[5, 3]`.  The two next thread sets differ. -/
theorem hinted_vs_zeroed_stepping_differ :
    runOnByte hintedInstrs [0, 3, 4] WorkQueue.empty 97 30 =
      some (.ok ⟨[5], true⟩) ∧
    runOnByte zeroedInstrs [0, 3, 4] WorkQueue.empty 97 30 =
      some (.ok ⟨[5, 3], true⟩) ∧
    (⟨[5], true⟩ : WorkQueue) ≠ (⟨[5, 3], true⟩ : WorkQueue) :=
  ⟨rfl, rfl, by decide⟩

/-- C6 counterexample: a malformed program (the `ByteRange`'s jump
target 99 dangles far past the end of the 3-instruction array) is
executed without any error signal: on empty input `run` silently returns
the normal no-match outcome instead of refusing to execute. -/
theorem malformed_program_runs_silently :
    runVM 30 unreachedDanglingProg [] = some (.ok none) := rfl

/-- C6 amended: malformed programs are rejected when (and only when)
execution actually reaches the defect, each via an error outcome
distinct from the normal match / no-match results: a dangling `Nop`
target raises `IndexError` when followed; the empty instruction array
raises `IndexError` when the synthetic entry's target is fetched; a
`Match` whose indicator is `"+"` (inconsistent for the last element of a
sublist) fails the `assert` in the closure walk. -/
theorem malformed_programs_error_when_reached :
    runVM 30 danglingProg [] = some (.error .indexError) ∧
    runVM 30 ([] : List Instruction) [] = some (.error .indexError) ∧
    runVM 30 badIndicatorProg [] = some (.error .assertionError) :=
  ⟨rfl, rfl, rfl⟩

/-!  ## Basic lemmas about the closure walk -/

theorem pyNth_ok_iff {α : Type} {l : List α} {i : Nat} {a : α} :
    pyNth l i = .ok a ↔ l.get? i = some a := by
  unfold pyNth
  cases h : l.get? i <;> simp

theorem recordHead_err {instrs : List Instruction} {ip : Nat} {q : WorkQueue} {e : Err}
    (hprev : pyNthI instrs ((ip : Int) - 1) = .error e) :
    recordHead instrs ip q = .error e := by
  unfold recordHead; rw [hprev]

theorem recordHead_ok {instrs : List Instruction} {ip : Nat} {q : WorkQueue}
    {prev : Instruction} (hprev : pyNthI instrs ((ip : Int) - 1) = .ok prev) :
    recordHead instrs ip q =
      (if prev.indicator = .last then .ok { q with heads := q.heads ++ [ip] }
       else .ok q) := by
  unfold recordHead; rw [hprev]

theorem recordHead_spec {instrs : List Instruction} {ip : Nat} {q q1 : WorkQueue}
    (h : recordHead instrs ip q = .ok q1) :
    (q1.heads = q.heads ∨ q1.heads = q.heads ++ [ip]) ∧
    q1.contains_InstrMatch = q.contains_InstrMatch := by
  cases hprev : pyNthI instrs ((ip : Int) - 1) with
  | error e => rw [recordHead_err hprev] at h; exact absurd h (by simp)
  | ok prev =>
    rw [recordHead_ok hprev] at h
    by_cases hind : prev.indicator = Indicator.last
    · rw [if_pos hind] at h
      simp only [Except.ok.injEq] at h
      subst h
      exact ⟨Or.inr rfl, rfl⟩
    · rw [if_neg hind] at h
      simp only [Except.ok.injEq] at h
      subst h
      exact ⟨Or.inl rfl, rfl⟩

theorem addStep_err {instrs : List Instruction} {ip : Nat} {q : WorkQueue} {e : Err}
    (instr : Instruction) (stk : List Nat) (hrec : recordHead instrs ip q = .error e) :
    addStep instrs ip instr stk q = .error e := by
  unfold addStep; rw [hrec]

theorem addStep_capture_ok {instrs : List Instruction} {ip : Nat} {q q1 : WorkQueue}
    (ind : Indicator) (buf out : Nat) (stk : List Nat)
    (hrec : recordHead instrs ip q = .ok q1) :
    addStep instrs ip (.instrCapture ind buf out) stk q =
      .ok (some out, (if ind = .cont then (ip + 1) :: stk else stk), q1) := by
  unfold addStep; rw [hrec]

theorem addStep_nop_ok {instrs : List Instruction} {ip : Nat} {q q1 : WorkQueue}
    (ind : Indicator) (out : Nat) (stk : List Nat)
    (hrec : recordHead instrs ip q = .ok q1) :
    addStep instrs ip (.instrNop ind out) stk q =
      .ok (some out, (if ind = .cont then (ip + 1) :: stk else stk), q1) := by
  unfold addStep; rw [hrec]

theorem addStep_byteRange_ok {instrs : List Instruction} {ip : Nat} {q q1 : WorkQueue}
    (ind : Indicator) (mn mx hint out : Nat) (stk : List Nat)
    (hrec : recordHead instrs ip q = .ok q1) :
    addStep instrs ip (.instrByteRange ind mn mx hint out) stk q =
      (if ind = .last then .ok (none, stk, q1) else .ok (some (ip + 1), stk, q1)) := by
  unfold addStep; rw [hrec]

theorem addStep_matchI_ok {instrs : List Instruction} {ip : Nat} {q q1 : WorkQueue}
    (ind : Indicator) (stk : List Nat)
    (hrec : recordHead instrs ip q = .ok q1) :
    addStep instrs ip (.instrMatch ind) stk q =
      (if ind = .last then .ok (none, stk, { q1 with contains_InstrMatch := true })
       else .error .assertionError) := by
  unfold addStep; rw [hrec]

/-- Characterization of one closure-walk dispatch step: how the queue's
heads and flag change, and where the new pending pointers come from. -/
theorem addStep_spec {instrs : List Instruction} {ip : Nat} {instr : Instruction}
    {stk : List Nat} {q : WorkQueue} {ipo2 : Option Nat} {stk2 : List Nat} {q2 : WorkQueue}
    (hinstr : instrs.get? ip = some instr)
    (h : addStep instrs ip instr stk q = .ok (ipo2, stk2, q2)) :
    (q2.heads = q.heads ∨ q2.heads = q.heads ++ [ip]) ∧
    (q2.contains_InstrMatch = true →
      q.contains_InstrMatch = true ∨ ∃ ind, instr = .instrMatch ind) ∧
    (q.contains_InstrMatch = true → q2.contains_InstrMatch = true) ∧
    (∀ y, (ipo2 = some y ∨ y ∈ stk2) → y ∈ epsSucc instrs ip ∨ y ∈ stk) ∧
    ((∀ ind, instr ≠ .instrMatch ind) →
      (∀ s ∈ epsSucc instrs ip, ipo2 = some s ∨ s ∈ stk2) ∧
      q2.contains_InstrMatch = q.contains_InstrMatch) ∧
    (∀ ind, instr = .instrMatch ind → q2.contains_InstrMatch = true) ∧
    (∀ y ∈ stk, y ∈ stk2) := by
  cases hrec : recordHead instrs ip q with
  | error e => rw [addStep_err instr stk hrec] at h; exact absurd h (by simp)
  | ok q1 =>
    obtain ⟨hheads, hflag⟩ := recordHead_spec hrec
    cases instr with
    | instrCapture ind buf out =>
      rw [addStep_capture_ok ind buf out stk hrec] at h
      cases ind with
      | cont =>
        rw [if_pos rfl] at h
        simp only [Except.ok.injEq, Prod.mk.injEq] at h
        obtain ⟨h1, h2, h3⟩ := h
        subst h1 h2 h3
        refine ⟨hheads, ?_, ?_, ?_, ?_, ?_, ?_⟩
        · intro hf; rw [hflag] at hf; exact Or.inl hf
        · intro hf; rw [hflag]; exact hf
        · intro y hy
          simp only [epsSucc, hinstr, reduceIte]
          simp only [Option.some.injEq, List.mem_cons] at hy
          rcases hy with hy | hy | hy
          · subst hy; simp
          · subst hy; simp
          · exact Or.inr hy
        · intro _
          refine ⟨?_, hflag⟩
          intro s hs
          simp only [epsSucc, hinstr, reduceIte, List.mem_cons, List.not_mem_nil,
            or_false] at hs
          rcases hs with hs | hs
          · subst hs; exact Or.inl rfl
          · subst hs; exact Or.inr (by simp)
        · intro ind2 hind; cases hind
        · intro y hy; exact List.mem_cons_of_mem _ hy
      | last =>
        rw [if_neg (by decide)] at h
        simp only [Except.ok.injEq, Prod.mk.injEq] at h
        obtain ⟨h1, h2, h3⟩ := h
        subst h1 h2 h3
        refine ⟨hheads, ?_, ?_, ?_, ?_, ?_, ?_⟩
        · intro hf; rw [hflag] at hf; exact Or.inl hf
        · intro hf; rw [hflag]; exact hf
        · intro y hy
          simp only [epsSucc, hinstr, reduceIte]
          simp only [Option.some.injEq] at hy
          rcases hy with hy | hy
          · subst hy; simp
          · exact Or.inr hy
        · intro _
          refine ⟨?_, hflag⟩
          intro s hs
          simp only [epsSucc, hinstr] at hs
          rw [if_neg (show ¬(Indicator.last = Indicator.cont) by decide)] at hs
          simp only [List.mem_cons, List.not_mem_nil, or_false] at hs
          subst hs; exact Or.inl rfl
        · intro ind2 hind; cases hind
        · intro y hy; exact hy
    | instrNop ind out =>
      rw [addStep_nop_ok ind out stk hrec] at h
      cases ind with
      | cont =>
        rw [if_pos rfl] at h
        simp only [Except.ok.injEq, Prod.mk.injEq] at h
        obtain ⟨h1, h2, h3⟩ := h
        subst h1 h2 h3
        refine ⟨hheads, ?_, ?_, ?_, ?_, ?_, ?_⟩
        · intro hf; rw [hflag] at hf; exact Or.inl hf
        · intro hf; rw [hflag]; exact hf
        · intro y hy
          simp only [epsSucc, hinstr, reduceIte]
          simp only [Option.some.injEq, List.mem_cons] at hy
          rcases hy with hy | hy | hy
          · subst hy; simp
          · subst hy; simp
          · exact Or.inr hy
        · intro _
          refine ⟨?_, hflag⟩
          intro s hs
          simp only [epsSucc, hinstr, reduceIte, List.mem_cons, List.not_mem_nil,
            or_false] at hs
          rcases hs with hs | hs
          · subst hs; exact Or.inl rfl
          · subst hs; exact Or.inr (by simp)
        · intro ind2 hind; cases hind
        · intro y hy; exact List.mem_cons_of_mem _ hy
      | last =>
        rw [if_neg (by decide)] at h
        simp only [Except.ok.injEq, Prod.mk.injEq] at h
        obtain ⟨h1, h2, h3⟩ := h
        subst h1 h2 h3
        refine ⟨hheads, ?_, ?_, ?_, ?_, ?_, ?_⟩
        · intro hf; rw [hflag] at hf; exact Or.inl hf
        · intro hf; rw [hflag]; exact hf
        · intro y hy
          simp only [epsSucc, hinstr, reduceIte]
          simp only [Option.some.injEq] at hy
          rcases hy with hy | hy
          · subst hy; simp
          · exact Or.inr hy
        · intro _
          refine ⟨?_, hflag⟩
          intro s hs
          simp only [epsSucc, hinstr] at hs
          rw [if_neg (show ¬(Indicator.last = Indicator.cont) by decide)] at hs
          simp only [List.mem_cons, List.not_mem_nil, or_false] at hs
          subst hs; exact Or.inl rfl
        · intro ind2 hind; cases hind
        · intro y hy; exact hy
    | instrByteRange ind mn mx hint out =>
      rw [addStep_byteRange_ok ind mn mx hint out stk hrec] at h
      cases ind with
      | cont =>
        rw [if_neg (by decide)] at h
        simp only [Except.ok.injEq, Prod.mk.injEq] at h
        obtain ⟨h1, h2, h3⟩ := h
        subst h1 h2 h3
        refine ⟨hheads, ?_, ?_, ?_, ?_, ?_, ?_⟩
        · intro hf; rw [hflag] at hf; exact Or.inl hf
        · intro hf; rw [hflag]; exact hf
        · intro y hy
          simp only [epsSucc, hinstr, reduceIte]
          simp only [Option.some.injEq] at hy
          rcases hy with hy | hy
          · subst hy; simp
          · exact Or.inr hy
        · intro _
          refine ⟨?_, hflag⟩
          intro s hs
          simp only [epsSucc, hinstr, reduceIte, List.mem_cons, List.not_mem_nil,
            or_false] at hs
          subst hs
          exact Or.inl rfl
        · intro ind2 hind; cases hind
        · intro y hy; exact hy
      | last =>
        rw [if_pos rfl] at h
        simp only [Except.ok.injEq, Prod.mk.injEq] at h
        obtain ⟨h1, h2, h3⟩ := h
        subst h1 h2 h3
        refine ⟨hheads, ?_, ?_, ?_, ?_, ?_, ?_⟩
        · intro hf; rw [hflag] at hf; exact Or.inl hf
        · intro hf; rw [hflag]; exact hf
        · intro y hy
          rcases hy with hy | hy
          · cases hy
          · exact Or.inr hy
        · intro _
          refine ⟨?_, hflag⟩
          intro s hs
          simp only [epsSucc, hinstr] at hs
          rw [if_neg (show ¬(Indicator.last = Indicator.cont) by decide)] at hs
          exact absurd hs (List.not_mem_nil s)
        · intro ind2 hind; cases hind
        · intro y hy; exact hy
    | instrMatch ind =>
      rw [addStep_matchI_ok ind stk hrec] at h
      cases ind with
      | cont =>
        rw [if_neg (by decide)] at h
        exact absurd h (by simp)
      | last =>
        rw [if_pos rfl] at h
        simp only [Except.ok.injEq, Prod.mk.injEq] at h
        obtain ⟨h1, h2, h3⟩ := h
        subst h1 h2 h3
        refine ⟨hheads, ?_, ?_, ?_, ?_, ?_, ?_⟩
        · intro _; exact Or.inr ⟨Indicator.last, rfl⟩
        · intro _; rfl
        · intro y hy
          rcases hy with hy | hy
          · cases hy
          · exact Or.inr hy
        · intro hne; exact absurd rfl (hne Indicator.last)
        · intro _ _; rfl
        · intro y hy; exact hy

/-!  ## Unfolding lemmas for the closure loop -/

theorem addLoop_zero {instrs : List Instruction} {ipo : Option Nat} {stk : List Nat}
    {q : WorkQueue} : addLoop instrs 0 ipo stk q = none := rfl

theorem addLoop_none_nil {instrs : List Instruction} {fuel : Nat} {q : WorkQueue} :
    addLoop instrs (fuel + 1) none [] q = some (.ok q) := rfl

theorem addLoop_pop {instrs : List Instruction} {fuel ip : Nat} {stk : List Nat}
    {q : WorkQueue} :
    addLoop instrs (fuel + 1) none (ip :: stk) q = addLoop instrs fuel (some ip) stk q := rfl

theorem addLoop_succ_some {instrs : List Instruction} {fuel ip : Nat} {stk : List Nat}
    {q : WorkQueue} :
    addLoop instrs (fuel + 1) (some ip) stk q =
      (match pyNth instrs ip with
       | .error e => some (.error e)
       | .ok instr =>
         if ip ∈ q.heads then addLoop instrs fuel none stk q
         else
           match addStep instrs ip instr stk q with
           | .error e => some (.error e)
           | .ok (ipo2, stk2, q2) => addLoop instrs fuel ipo2 stk2 q2) := rfl

theorem addLoop_fetch_err {instrs : List Instruction} {fuel ip : Nat} {stk : List Nat}
    {q : WorkQueue} {e : Err} (hg : pyNth instrs ip = .error e) :
    addLoop instrs (fuel + 1) (some ip) stk q = some (.error e) := by
  rw [addLoop_succ_some]; simp only [hg]

theorem addLoop_dup {instrs : List Instruction} {fuel ip : Nat} {stk : List Nat}
    {q : WorkQueue} {instr : Instruction} (hg : pyNth instrs ip = .ok instr)
    (hmem : ip ∈ q.heads) :
    addLoop instrs (fuel + 1) (some ip) stk q = addLoop instrs fuel none stk q := by
  rw [addLoop_succ_some]; simp only [hg]; rw [if_pos hmem]

theorem addLoop_step_err {instrs : List Instruction} {fuel ip : Nat} {stk : List Nat}
    {q : WorkQueue} {instr : Instruction} {e : Err} (hg : pyNth instrs ip = .ok instr)
    (hmem : ip ∉ q.heads) (hs : addStep instrs ip instr stk q = .error e) :
    addLoop instrs (fuel + 1) (some ip) stk q = some (.error e) := by
  rw [addLoop_succ_some]; simp only [hg]; rw [if_neg hmem]; simp only [hs]

theorem addLoop_step {instrs : List Instruction} {fuel ip : Nat} {stk : List Nat}
    {q : WorkQueue} {instr : Instruction} {ipo2 : Option Nat} {stk2 : List Nat}
    {q2 : WorkQueue} (hg : pyNth instrs ip = .ok instr) (hmem : ip ∉ q.heads)
    (hs : addStep instrs ip instr stk q = .ok (ipo2, stk2, q2)) :
    addLoop instrs (fuel + 1) (some ip) stk q = addLoop instrs fuel ipo2 stk2 q2 := by
  rw [addLoop_succ_some]; simp only [hg]; rw [if_neg hmem]; simp only [hs]

/-!  ## Invariants of the closure loop -/

/-- The match flag is monotone along the closure walk. -/
theorem addLoop_flag_mono {instrs : List Instruction} :
    ∀ (fuel : Nat) (ipo : Option Nat) (stk : List Nat) (q q' : WorkQueue),
    addLoop instrs fuel ipo stk q = some (.ok q') →
    q.contains_InstrMatch = true → q'.contains_InstrMatch = true := by
  intro fuel
  induction fuel with
  | zero => intro ipo stk q q' h; exact absurd h (by simp [addLoop_zero])
  | succ f ih =>
    intro ipo stk q q' h hq
    cases ipo with
    | none =>
      cases stk with
      | nil =>
        rw [addLoop_none_nil] at h
        obtain rfl : q = q' := by simpa using h
        exact hq
      | cons ip stk => rw [addLoop_pop] at h; exact ih _ _ _ _ h hq
    | some ip =>
      cases hg : pyNth instrs ip with
      | error e => rw [addLoop_fetch_err hg] at h; exact absurd h (by simp)
      | ok instr =>
        by_cases hmem : ip ∈ q.heads
        · rw [addLoop_dup hg hmem] at h; exact ih _ _ _ _ h hq
        · cases hs : addStep instrs ip instr stk q with
          | error e => rw [addLoop_step_err hg hmem hs] at h; exact absurd h (by simp)
          | ok res =>
            obtain ⟨ipo2, stk2, q2⟩ := res
            rw [addLoop_step hg hmem hs] at h
            exact ih _ _ _ _ h ((addStep_spec (pyNth_ok_iff.mp hg) hs).2.2.1 hq)

/-- Recorded heads are never removed along the closure walk. -/
theorem addLoop_heads_mono {instrs : List Instruction} :
    ∀ (fuel : Nat) (ipo : Option Nat) (stk : List Nat) (q q' : WorkQueue),
    addLoop instrs fuel ipo stk q = some (.ok q') →
    ∀ hd, hd ∈ q.heads → hd ∈ q'.heads := by
  intro fuel
  induction fuel with
  | zero => intro ipo stk q q' h; exact absurd h (by simp [addLoop_zero])
  | succ f ih =>
    intro ipo stk q q' h hd hhd
    cases ipo with
    | none =>
      cases stk with
      | nil =>
        rw [addLoop_none_nil] at h
        obtain rfl : q = q' := by simpa using h
        exact hhd
      | cons ip stk => rw [addLoop_pop] at h; exact ih _ _ _ _ h hd hhd
    | some ip =>
      cases hg : pyNth instrs ip with
      | error e => rw [addLoop_fetch_err hg] at h; exact absurd h (by simp)
      | ok instr =>
        by_cases hmem : ip ∈ q.heads
        · rw [addLoop_dup hg hmem] at h; exact ih _ _ _ _ h hd hhd
        · cases hs : addStep instrs ip instr stk q with
          | error e => rw [addLoop_step_err hg hmem hs] at h; exact absurd h (by simp)
          | ok res =>
            obtain ⟨ipo2, stk2, q2⟩ := res
            rw [addLoop_step hg hmem hs] at h
            refine ih _ _ _ _ h hd ?_
            rcases (addStep_spec (pyNth_ok_iff.mp hg) hs).1 with he | he
            · rw [he]; exact hhd
            · rw [he]; exact List.mem_append_left _ hhd

/-- Soundness of the reachable-match flag: if the walk ends with the
flag set, it was set on entry or a `Match` is epsilon-reachable from
some pending pointer. -/
theorem addLoop_flag_sound {instrs : List Instruction} :
    ∀ (fuel : Nat) (ipo : Option Nat) (stk : List Nat) (q q' : WorkQueue),
    addLoop instrs fuel ipo stk q = some (.ok q') →
    q'.contains_InstrMatch = true →
    q.contains_InstrMatch = true ∨
      ∃ x, (ipo = some x ∨ x ∈ stk) ∧ ReachMatch instrs x := by
  intro fuel
  induction fuel with
  | zero => intro ipo stk q q' h; exact absurd h (by simp [addLoop_zero])
  | succ f ih =>
    intro ipo stk q q' h hq'
    cases ipo with
    | none =>
      cases stk with
      | nil =>
        rw [addLoop_none_nil] at h
        obtain rfl : q = q' := by simpa using h
        exact Or.inl hq'
      | cons ip stk =>
        rw [addLoop_pop] at h
        rcases ih _ _ _ _ h hq' with hf | ⟨x, hx, hr⟩
        · exact Or.inl hf
        · rcases hx with hx | hx
          · obtain rfl := Option.some.inj hx
            exact Or.inr ⟨ip, Or.inr (List.mem_cons_self ip stk), hr⟩
          · exact Or.inr ⟨x, Or.inr (List.mem_cons_of_mem _ hx), hr⟩
    | some ip =>
      cases hg : pyNth instrs ip with
      | error e => rw [addLoop_fetch_err hg] at h; exact absurd h (by simp)
      | ok instr =>
        have hget := pyNth_ok_iff.mp hg
        by_cases hmem : ip ∈ q.heads
        · rw [addLoop_dup hg hmem] at h
          rcases ih _ _ _ _ h hq' with hf | ⟨x, hx, hr⟩
          · exact Or.inl hf
          · rcases hx with hx | hx
            · cases hx
            · exact Or.inr ⟨x, Or.inr hx, hr⟩
        · cases hs : addStep instrs ip instr stk q with
          | error e => rw [addLoop_step_err hg hmem hs] at h; exact absurd h (by simp)
          | ok res =>
            obtain ⟨ipo2, stk2, q2⟩ := res
            rw [addLoop_step hg hmem hs] at h
            obtain ⟨_, hfb, _, hpend4, _, _, _⟩ := addStep_spec hget hs
            rcases ih _ _ _ _ h hq' with hf2 | ⟨x, hx, hr⟩
            · rcases hfb hf2 with hf | ⟨ind, rfl⟩
              · exact Or.inl hf
              · exact Or.inr ⟨ip, Or.inl rfl, ⟨0, .base ip ind hget⟩⟩
            · rcases hpend4 x hx with hy | hy
              · -- x is an epsilon successor of ip
                obtain ⟨k, hk⟩ := hr
                exact Or.inr ⟨ip, Or.inl rfl, ⟨k + 1, .step k ip x hy hk⟩⟩
              · exact Or.inr ⟨x, Or.inr hy, hr⟩

/-!  ## Completeness of the reachable-match flag -/

theorem ReachMatchN_succ_of_nonmatch {instrs : List Instruction} {k ip : Nat}
    (hnm : ∀ ind, instrs.get? ip ≠ some (.instrMatch ind))
    (h : ReachMatchN instrs k ip) :
    ∃ s ∈ epsSucc instrs ip, ∃ j, j < k ∧ ReachMatchN instrs j s := by
  cases h with
  | base ip ind hm => exact absurd hm (hnm ind)
  | step k ip s hs hr => exact ⟨s, hs, k, Nat.lt_succ_self k, hr⟩

/-- Discarding an already-recorded pending pointer preserves the
completeness invariant: any match-path from the pruned pointer is
already witnessed (with a shorter path) by the remaining pending
stack, or the flag is already set. -/
theorem Jinv_prune {instrs : List Instruction} {ip : Nat} {stk : List Nat} {q : WorkQueue}
    (hmem : ip ∈ q.heads) (hJ : Jinv instrs (ip :: stk) q) :
    (∀ k, ReachMatchN instrs k ip →
      q.contains_InstrMatch = true ∨ ∃ y ∈ stk, ∃ j, j < k ∧ ReachMatchN instrs j y) ∧
    Jinv instrs stk q := by
  have main : ∀ k, ReachMatchN instrs k ip →
      q.contains_InstrMatch = true ∨ ∃ y ∈ stk, ∃ j, j < k ∧ ReachMatchN instrs j y := by
    intro k
    induction k using Nat.strong_induction_on with
    | _ k ihk =>
      intro hk
      rcases hJ ip hmem k hk with hf | ⟨y, hy, j, hj, hrj⟩
      · exact Or.inl hf
      · rcases List.mem_cons.mp hy with rfl | hy'
        · rcases ihk j hj hrj with hf | ⟨z, hz, j2, hj2, hrj2⟩
          · exact Or.inl hf
          · exact Or.inr ⟨z, hz, j2, lt_trans hj2 hj, hrj2⟩
        · exact Or.inr ⟨y, hy', j, hj, hrj⟩
  refine ⟨main, ?_⟩
  intro hd hhd k hk
  rcases hJ hd hhd k hk with hf | ⟨y, hy, j, hj, hrj⟩
  · exact Or.inl hf
  · rcases List.mem_cons.mp hy with rfl | hy'
    · rcases main j hrj with hf | ⟨z, hz, j2, hj2, hrj2⟩
      · exact Or.inl hf
      · exact Or.inr ⟨z, hz, j2, lt_trans hj2 hj, hrj2⟩
    · exact Or.inr ⟨y, hy', j, hj, hrj⟩

/-- Dispatching a non-`Match` instruction preserves the completeness
invariant: the dispatched pointer's epsilon successors all enter the new
pending state. -/
theorem Jinv_step {instrs : List Instruction} {ip : Nat} {stk : List Nat} {q : WorkQueue}
    {instr : Instruction} {ipo2 : Option Nat} {stk2 : List Nat} {q2 : WorkQueue}
    (hinstr : instrs.get? ip = some instr)
    (hs : addStep instrs ip instr stk q = .ok (ipo2, stk2, q2))
    (hnm : ∀ ind, instr ≠ .instrMatch ind)
    (hJ : Jinv instrs (ip :: stk) q) :
    Jinv instrs (ipo2.toList ++ stk2) q2 := by
  obtain ⟨hheads, _, hmono, _, hpend5, _, hstk7⟩ := addStep_spec hinstr hs
  obtain ⟨hsucc, _⟩ := hpend5 hnm
  have hnm' : ∀ ind, instrs.get? ip ≠ some (.instrMatch ind) := by
    intro ind hc
    rw [hinstr] at hc
    exact hnm ind (Option.some.inj hc)
  have hip : ∀ j, ReachMatchN instrs j ip →
      ∃ y ∈ ipo2.toList ++ stk2, ∃ j2, j2 < j ∧ ReachMatchN instrs j2 y := by
    intro j hj
    obtain ⟨s, hsmem, j2, hj2, hr⟩ := ReachMatchN_succ_of_nonmatch hnm' hj
    refine ⟨s, ?_, j2, hj2, hr⟩
    rcases hsucc s hsmem with h1 | h1
    · rw [h1]; simp
    · exact List.mem_append_right _ h1
  intro hd hhd k hk
  have hcase : hd ∈ q.heads ∨ hd = ip := by
    rcases hheads with he | he
    · rw [he] at hhd; exact Or.inl hhd
    · rw [he] at hhd
      rcases List.mem_append.mp hhd with h1 | h1
      · exact Or.inl h1
      · right; simpa using h1
  rcases hcase with hmemq | rfl
  · rcases hJ hd hmemq k hk with hf | ⟨y, hy, j, hj, hrj⟩
    · exact Or.inl (hmono hf)
    · rcases List.mem_cons.mp hy with rfl | hy'
      · rcases hip j hrj with ⟨z, hz, j2, hj2, hrj2⟩
        exact Or.inr ⟨z, hz, j2, lt_trans hj2 hj, hrj2⟩
      · exact Or.inr ⟨y, List.mem_append_right _ (hstk7 y hy'), j, hj, hrj⟩
  · rcases hip k hk with ⟨z, hz, j2, hj2, hrj2⟩
    exact Or.inr ⟨z, hz, j2, hj2, hrj2⟩

/-- Completeness of the reachable-match flag: if the walk terminates
normally and a `Match` is epsilon-reachable from a pending pointer (with
the invariant holding for the already-recorded heads), the final flag is
set. -/
theorem addLoop_complete {instrs : List Instruction} :
    ∀ (fuel : Nat) (ipo : Option Nat) (stk : List Nat) (q q' : WorkQueue),
    addLoop instrs fuel ipo stk q = some (.ok q') →
    Jinv instrs (ipo.toList ++ stk) q →
    ∀ x, (ipo = some x ∨ x ∈ stk) → ∀ k, ReachMatchN instrs k x →
    q'.contains_InstrMatch = true := by
  intro fuel
  induction fuel with
  | zero => intro ipo stk q q' h; exact absurd h (by simp [addLoop_zero])
  | succ f ih =>
    intro ipo stk q q' h hJ x hx k hk
    cases ipo with
    | none =>
      cases stk with
      | nil =>
        rcases hx with hx | hx
        · cases hx
        · cases hx
      | cons ip stk =>
        rw [addLoop_pop] at h
        have hJ' : Jinv instrs ((some ip).toList ++ stk) q := by simpa using hJ
        rcases hx with hx | hx
        · cases hx
        · rcases List.mem_cons.mp hx with rfl | hx'
          · exact ih _ _ _ _ h hJ' x (Or.inl rfl) k hk
          · exact ih _ _ _ _ h hJ' x (Or.inr hx') k hk
    | some ip =>
      cases hg : pyNth instrs ip with
      | error e => rw [addLoop_fetch_err hg] at h; exact absurd h (by simp)
      | ok instr =>
        have hget := pyNth_ok_iff.mp hg
        by_cases hmem : ip ∈ q.heads
        · rw [addLoop_dup hg hmem] at h
          have hJc : Jinv instrs (ip :: stk) q := by simpa using hJ
          obtain ⟨hmain, hJ'⟩ := Jinv_prune hmem hJc
          have hJ'' : Jinv instrs ((none : Option Nat).toList ++ stk) q := by simpa using hJ'
          rcases hx with hx | hx
          · obtain rfl := Option.some.inj hx
            rcases hmain k hk with hf | ⟨y, hy, j, hj, hrj⟩
            · exact addLoop_flag_mono _ _ _ _ _ h hf
            · exact ih _ _ _ _ h hJ'' y (Or.inr hy) j hrj
          · exact ih _ _ _ _ h hJ'' x (Or.inr hx) k hk
        · cases hs : addStep instrs ip instr stk q with
          | error e => rw [addLoop_step_err hg hmem hs] at h; exact absurd h (by simp)
          | ok res =>
            obtain ⟨ipo2, stk2, q2⟩ := res
            rw [addLoop_step hg hmem hs] at h
            obtain ⟨hheads, hfb, hmono, hpend4, hpend5, hmatch6, hstk7⟩ :=
              addStep_spec hget hs
            by_cases hismatch : ∃ ind, instr = .instrMatch ind
            · obtain ⟨ind, rfl⟩ := hismatch
              exact addLoop_flag_mono _ _ _ _ _ h (hmatch6 ind rfl)
            · have hnm : ∀ ind, instr ≠ .instrMatch ind := fun ind hc => hismatch ⟨ind, hc⟩
              have hJc : Jinv instrs (ip :: stk) q := by simpa using hJ
              have hJ2 : Jinv instrs (ipo2.toList ++ stk2) q2 := Jinv_step hget hs hnm hJc
              obtain ⟨hsucc, _⟩ := hpend5 hnm
              rcases hx with hx | hx
              · obtain rfl := Option.some.inj hx
                have hnm' : ∀ ind2, instrs.get? ip ≠ some (.instrMatch ind2) := by
                  intro ind2 hc
                  rw [hget] at hc
                  exact hnm ind2 (Option.some.inj hc)
                obtain ⟨s, hsmem, j, hj, hr⟩ := ReachMatchN_succ_of_nonmatch hnm' hk
                rcases hsucc s hsmem with h1 | h1
                · exact ih _ _ _ _ h hJ2 s (Or.inl h1) j hr
                · exact ih _ _ _ _ h hJ2 s (Or.inr h1) j hr
              · exact ih _ _ _ _ h hJ2 x (Or.inr (hstk7 x hx)) k hk

/-- C3: for a terminating `WorkQueue.add` on a fresh queue, the
`contains_InstrMatch` flag of the resulting queue is set if and only if
a `Match` instruction is epsilon-reachable from the seed pointer
(following `Nop`/`Capture` edges and the `"+"`-indicator sibling edge of
`ByteRange`): the flag is determined during closure construction itself,
independently of the byte-stepping phase. -/
theorem add_match_flag_iff_reachable (instrs : List Instruction) (fuel ip : Nat)
    (q' : WorkQueue)
    (h : WorkQueue.empty.add instrs fuel ip = some (.ok q')) :
    q'.contains_InstrMatch = true ↔ ReachMatch instrs ip := by
  have h' : addLoop instrs fuel (some ip) [] WorkQueue.empty = some (.ok q') := h
  constructor
  · intro hf
    rcases addLoop_flag_sound fuel (some ip) [] WorkQueue.empty q' h' hf with hq | ⟨x, hx, hr⟩
    · exact absurd hq (by simp [WorkQueue.empty])
    · rcases hx with hx | hx
      · obtain rfl := Option.some.inj hx
        exact hr
      · cases hx
  · rintro ⟨k, hk⟩
    refine addLoop_complete fuel (some ip) [] WorkQueue.empty q' h' ?_ ip (Or.inl rfl) k hk
    intro hd hhd
    exact absurd hhd (List.not_mem_nil hd)

/-- C3 witness: instantiating the iff on the a|ε|b program shows a
`Match` is epsilon-reachable from the synthetic entry at index 0, since
closure construction from 0 terminates with the flag set. -/
theorem add_match_flag_iff_reachable_witness :
    ReachMatch (Instruction.instrNop .last 1 :: aOrEpsOrB) 0 :=
  (add_match_flag_iff_reachable (Instruction.instrNop .last 1 :: aOrEpsOrB) 30 0
    ⟨[0, 1, 4], true⟩ rfl).mp rfl

/-- Re-adding an already-recorded head is a no-op: the fetched
instruction exists and the duplicate test discards the pointer at once. -/
theorem add_recorded_head_noop {instrs : List Instruction} {q : WorkQueue} {hd fuel : Nat}
    (hmem : hd ∈ q.heads) (hlt : hd < instrs.length) (hfuel : 2 ≤ fuel) :
    q.add instrs fuel hd = some (.ok q) := by
  obtain ⟨f, rfl⟩ : ∃ f, fuel = f + 2 := ⟨fuel - 2, by omega⟩
  have hg : pyNth instrs hd = .ok (instrs.get ⟨hd, hlt⟩) := by
    rw [pyNth_ok_iff]
    exact List.get?_eq_get hlt
  show addLoop instrs (f + 1 + 1) (some hd) [] q = some (.ok q)
  rw [addLoop_dup hg hmem]
  exact addLoop_none_nil

/-- C9: closure construction is idempotent.  Re-running `WorkQueue.add`
on each of the queue's own recorded heads (in order, via `addAll` over
`to_list`) leaves the queue unchanged: the ordered head list does not
grow, its order is preserved, and the match flag is untouched. -/
theorem closure_idempotent (instrs : List Instruction) (q : WorkQueue) (fuel : Nat)
    (hvalid : ∀ hd ∈ q.heads, hd < instrs.length) (hfuel : 2 ≤ fuel) :
    addAll instrs fuel q q.to_list = some (.ok q) := by
  have main : ∀ l : List Nat, (∀ hd ∈ l, hd ∈ q.heads) →
      addAll instrs fuel q l = some (.ok q) := by
    intro l
    induction l with
    | nil => intro _; rfl
    | cons hd t ih =>
      intro hsub
      have hmem := hsub hd (List.mem_cons_self hd t)
      have h1 : q.add instrs fuel hd = some (.ok q) :=
        add_recorded_head_noop hmem (hvalid hd hmem) hfuel
      have hunf : addAll instrs fuel q (hd :: t) =
          (match q.add instrs fuel hd with
           | none => none
           | some (.error e) => some (.error e)
           | some (.ok q2) => addAll instrs fuel q2 t) := rfl
      rw [hunf, h1]
      exact ih (fun x hx => hsub x (List.mem_cons_of_mem hd hx))
  exact main q.heads (fun hd hh => hh)

/-- C9 witness: the closure queue `[0, 1]` built for the single-byte
program is unchanged by re-adding each of its own heads. -/
theorem closure_idempotent_witness :
    addAll (Instruction.instrNop .last 1 :: progA) 30 ⟨[0, 1], false⟩
      (WorkQueue.to_list ⟨[0, 1], false⟩) = some (.ok ⟨[0, 1], false⟩) :=
  closure_idempotent (Instruction.instrNop .last 1 :: progA) ⟨[0, 1], false⟩ 30
    (by decide) (by decide)

/-!  ## The synthetic entry's head test (Python negative indexing) -/

theorem pyNthI_neg_one {α : Type} (l : List α) (hne : l ≠ []) :
    pyNthI l (-1) = .ok (l.getLast hne) := by
  have hlen : 0 < l.length := List.length_pos.mpr hne
  unfold pyNthI
  rw [if_neg (by norm_num), if_pos (by omega)]
  have h2 : ((l.length : Int) + (-1)).toNat = l.length - 1 := by omega
  rw [h2]
  refine pyNth_ok_iff.mpr ?_
  rw [List.getLast_eq_getElem]
  exact List.get?_eq_get (by omega)

/-- The head test at instruction pointer 0 reads `instrs[0 - 1]`, i.e.
the final instruction of the array under Python negative indexing. -/
theorem recordHead_zero_heads {instrs : List Instruction} {q q1 : WorkQueue}
    (hne : instrs ≠ []) (hrec : recordHead instrs 0 q = .ok q1) :
    q1.heads = (if (instrs.getLast hne).indicator = Indicator.last
                then q.heads ++ [0] else q.heads) := by
  have hprev : pyNthI instrs (((0 : Nat) : Int) - 1) = .ok (instrs.getLast hne) := by
    rw [show ((0 : Nat) : Int) - 1 = -1 by norm_num]
    exact pyNthI_neg_one instrs hne
  rw [recordHead_ok hprev] at hrec
  by_cases hind : (instrs.getLast hne).indicator = Indicator.last
  · rw [if_pos hind] at hrec
    rw [if_pos hind]
    simp only [Except.ok.injEq] at hrec
    subst hrec
    rfl
  · rw [if_neg hind] at hrec
    rw [if_neg hind]
    simp only [Except.ok.injEq] at hrec
    subst hrec
    rfl

/-- Across one dispatch, the queue's head list is exactly what the
head-of-sublist recording produced. -/
theorem addStep_heads_eq_recordHead {instrs : List Instruction} {ip : Nat}
    {instr : Instruction} {stk : List Nat} {q q1 : WorkQueue} {ipo2 : Option Nat}
    {stk2 : List Nat} {q2 : WorkQueue}
    (hrec : recordHead instrs ip q = .ok q1)
    (hs : addStep instrs ip instr stk q = .ok (ipo2, stk2, q2)) :
    q2.heads = q1.heads := by
  cases instr with
  | instrCapture ind buf out =>
    rw [addStep_capture_ok ind buf out stk hrec] at hs
    simp only [Except.ok.injEq, Prod.mk.injEq] at hs
    rw [← hs.2.2]
  | instrNop ind out =>
    rw [addStep_nop_ok ind out stk hrec] at hs
    simp only [Except.ok.injEq, Prod.mk.injEq] at hs
    rw [← hs.2.2]
  | instrByteRange ind mn mx hint out =>
    rw [addStep_byteRange_ok ind mn mx hint out stk hrec] at hs
    split at hs <;> (simp only [Except.ok.injEq, Prod.mk.injEq] at hs; rw [← hs.2.2])
  | instrMatch ind =>
    rw [addStep_matchI_ok ind stk hrec] at hs
    split at hs
    · simp only [Except.ok.injEq, Prod.mk.injEq] at hs
      rw [← hs.2.2]
    · exact absurd hs (by simp)

/-- Along the whole walk, index 0 can only enter the head list when the
final instruction of the array carries the `"."` indicator. -/
theorem addLoop_zero_head_inv {instrs : List Instruction} (hne : instrs ≠ []) :
    ∀ (fuel : Nat) (ipo : Option Nat) (stk : List Nat) (q q' : WorkQueue),
    addLoop instrs fuel ipo stk q = some (.ok q') →
    (0 ∈ q.heads → (instrs.getLast hne).indicator = Indicator.last) →
    0 ∈ q'.heads → (instrs.getLast hne).indicator = Indicator.last := by
  intro fuel
  induction fuel with
  | zero => intro ipo stk q q' h; exact absurd h (by simp [addLoop_zero])
  | succ f ih =>
    intro ipo stk q q' h hq hq'
    cases ipo with
    | none =>
      cases stk with
      | nil =>
        rw [addLoop_none_nil] at h
        obtain rfl : q = q' := by simpa using h
        exact hq hq'
      | cons ip stk => rw [addLoop_pop] at h; exact ih _ _ _ _ h hq hq'
    | some ip =>
      cases hg : pyNth instrs ip with
      | error e => rw [addLoop_fetch_err hg] at h; exact absurd h (by simp)
      | ok instr =>
        by_cases hmem : ip ∈ q.heads
        · rw [addLoop_dup hg hmem] at h; exact ih _ _ _ _ h hq hq'
        · cases hs : addStep instrs ip instr stk q with
          | error e => rw [addLoop_step_err hg hmem hs] at h; exact absurd h (by simp)
          | ok res =>
            obtain ⟨ipo2, stk2, q2⟩ := res
            rw [addLoop_step hg hmem hs] at h
            refine ih _ _ _ _ h ?_ hq'
            intro h02
            cases hrec : recordHead instrs ip q with
            | error e =>
              rw [addStep_err instr stk hrec] at hs
              exact absurd hs (by simp)
            | ok q1 =>
              rw [addStep_heads_eq_recordHead hrec hs] at h02
              by_cases hip0 : ip = 0
              · subst hip0
                rw [recordHead_zero_heads hne hrec] at h02
                by_cases hind : (instrs.getLast hne).indicator = Indicator.last
                · exact hind
                · rw [if_neg hind] at h02
                  exact hq h02
              · rcases (recordHead_spec hrec).1 with he | he
                · rw [he] at h02; exact hq h02
                · rw [he] at h02
                  rcases List.mem_append.mp h02 with h1 | h1
                  · exact hq h1
                  · simp only [List.mem_singleton] at h1
                    exact absurd h1.symm hip0

/-- C10: after `run` prepends the synthetic entry `Nop` at index 0, the
head-of-sublist test that `WorkQueue.add` performs at pointer 0 reads
`instrs[0 - 1]`, which under Python negative indexing is the final
instruction of the array; consequently the synthetic entry is recorded
as a queue head if and only if the last instruction carries the `"."`
(LAST) indicator — no error is raised for the missing predecessor. -/
theorem synthetic_entry_head_iff_last_indicator (prog : List Instruction) (fuel : Nat)
    (q' : WorkQueue)
    (h : WorkQueue.empty.add (Instruction.instrNop .last 1 :: prog) fuel 0 =
      some (.ok q')) :
    (0 ∈ q'.heads ↔
      ((Instruction.instrNop .last 1 :: prog).getLast (List.cons_ne_nil _ _)).indicator =
        Indicator.last) := by
  have h' : addLoop (Instruction.instrNop .last 1 :: prog) fuel (some 0) [] WorkQueue.empty =
      some (.ok q') := h
  have hne : (Instruction.instrNop .last 1 :: prog) ≠ [] := List.cons_ne_nil _ _
  constructor
  · intro hq'
    exact addLoop_zero_head_inv hne fuel (some 0) [] WorkQueue.empty q' h'
      (fun h0 => absurd h0 (List.not_mem_nil 0)) hq'
  · intro hC
    cases fuel with
    | zero => exact absurd h' (by simp [addLoop_zero])
    | succ f =>
      have hg : pyNth (Instruction.instrNop .last 1 :: prog) 0 =
          .ok (Instruction.instrNop .last 1) := rfl
      have hmem : (0 : Nat) ∉ WorkQueue.empty.heads := List.not_mem_nil 0
      have hprev : pyNthI (Instruction.instrNop .last 1 :: prog) (((0 : Nat) : Int) - 1) =
          .ok ((Instruction.instrNop .last 1 :: prog).getLast hne) := by
        rw [show ((0 : Nat) : Int) - 1 = -1 by norm_num]
        exact pyNthI_neg_one _ hne
      have hrec : recordHead (Instruction.instrNop .last 1 :: prog) 0 WorkQueue.empty =
          .ok { WorkQueue.empty with heads := WorkQueue.empty.heads ++ [0] } := by
        rw [recordHead_ok hprev, if_pos hC]
      have hs : addStep (Instruction.instrNop .last 1 :: prog) 0
          (Instruction.instrNop .last 1) [] WorkQueue.empty =
          .ok (some 1, [], { WorkQueue.empty with heads := WorkQueue.empty.heads ++ [0] }) := by
        rw [addStep_nop_ok _ _ _ hrec, if_neg (by decide)]
      rw [addLoop_step hg hmem hs] at h'
      exact addLoop_heads_mono _ _ _ _ _ h' 0 (by simp)

/-- C10 witness: for the one-instruction program `[. match!]` the array's
last instruction carries `"."`, and indeed index 0 is recorded among the
resulting heads. -/
theorem synthetic_entry_head_iff_last_indicator_witness :
    0 ∈ WorkQueue.heads ⟨[0, 1], true⟩ :=
  (synthetic_entry_head_iff_last_indicator [Instruction.instrMatch .last] 10
    ⟨[0, 1], true⟩ rfl).mpr rfl
/-!  ## Unfolding lemmas for the driver loop -/

theorem runLoop_of_empty {instrs : List Instruction} {fuel : Nat} {q : WorkQueue}
    {sp : Nat} {remaining : List Nat} {last : Option Nat} (he : q.is_empty = true) :
    runLoop instrs fuel q sp remaining last = some (.ok last) := by
  rw [runLoop.eq_def, if_pos he]

theorem runLoop_nil {instrs : List Instruction} {fuel : Nat} {q : WorkQueue}
    {sp : Nat} {last : Option Nat} :
    runLoop instrs fuel q sp [] last = some (.ok last) := by
  rw [runLoop.eq_def]
  split
  · rfl
  · rfl

theorem runLoop_cons {instrs : List Instruction} {fuel : Nat} {q : WorkQueue}
    {sp c : Nat} {rest : List Nat} {last : Option Nat} (hne : q.is_empty = false) :
    runLoop instrs fuel q sp (c :: rest) last =
      (match runOnByte instrs q.to_list WorkQueue.empty c fuel with
       | none => none
       | some (.error e) => some (.error e)
       | some (.ok nq) =>
         runLoop instrs fuel nq (sp + 1) rest
           (if nq.contains_InstrMatch then some (sp + 1) else last)) := by
  rw [runLoop.eq_def, hne]
  rfl

theorem runVM_unfold {fuel : Nat} {prog : List Instruction} {input : List Nat} :
    runVM fuel prog input =
      (match WorkQueue.empty.add (Instruction.instrNop .last 1 :: prog) fuel 0 with
       | none => none
       | some (.error e) => some (.error e)
       | some (.ok q) =>
         runLoop (Instruction.instrNop .last 1 :: prog) fuel q 0 input
           (if q.contains_InstrMatch then some 0 else none)) := rfl

/-- C7: a program consisting solely of the entry `Nop` epsilon-chaining
directly to `Match` returns match end 0 for every input, including the
empty one (first conjunct); more generally, whenever the initial closure
computed from index 0 terminates with its match flag set, position 0 is
the recorded best match end before any byte is consumed, as `run` on the
empty input returns it directly (second conjunct). -/
theorem immediate_match_returns_zero :
    (∀ input : List Nat, runVM 10 immediateProg input = some (.ok (some 0))) ∧
    (∀ (fuel : Nat) (prog : List Instruction) (q : WorkQueue),
      WorkQueue.empty.add (Instruction.instrNop .last 1 :: prog) fuel 0 = some (.ok q) →
      q.contains_InstrMatch = true →
      runVM fuel prog [] = some (.ok (some 0))) := by
  constructor
  · intro input
    cases input with
    | nil => rfl
    | cons c rest =>
      show runLoop (Instruction.instrNop .last 1 :: immediateProg) 10 ⟨[0, 1], true⟩ 0
          (c :: rest) (some 0) = some (.ok (some 0))
      rw [runLoop_cons (show WorkQueue.is_empty ⟨[0, 1], true⟩ = false from rfl)]
      have hstep : runOnByte (Instruction.instrNop .last 1 :: immediateProg)
          (WorkQueue.to_list ⟨[0, 1], true⟩) WorkQueue.empty c 10 =
          some (.ok WorkQueue.empty) := rfl
      rw [hstep]
      exact runLoop_of_empty (show WorkQueue.is_empty WorkQueue.empty = true from rfl)
  · intro fuel prog q hadd hflag
    rw [runVM_unfold, hadd]
    show runLoop (Instruction.instrNop .last 1 :: prog) fuel q 0 []
      (if q.contains_InstrMatch then some 0 else none) = some (.ok (some 0))
    simp only [hflag, eq_self_iff_true, if_true]
    exact runLoop_nil

/-- C7 witness: the immediate-match program on the empty input, via the
general initial-closure clause. -/
theorem immediate_match_returns_zero_witness :
    runVM 10 immediateProg [] = some (.ok (some 0)) :=
  immediate_match_returns_zero.2 10 immediateProg ⟨[0, 1], true⟩ rfl rfl

/-!  ## Unfolding lemmas for the stepping loop -/

theorem runOnByteLoop_byteRange_skip {instrs : List Instruction} {clist : List Nat}
    {c fuel i : Nat} {nq : WorkQueue} {ip : Nat} {ind : Indicator} {mn mx hint out : Nat}
    (hi : pyNth clist i = .ok ip) (hlt : i < clist.length)
    (hinstr : pyNth instrs ip = .ok (.instrByteRange ind mn mx hint out))
    (hrange : ¬(mn ≤ c ∧ c ≤ mx)) :
    runOnByteLoop instrs clist c (fuel + 1) i nq =
      runOnByteLoop instrs clist c fuel (i + 1) nq := by
  rw [runOnByteLoop]
  rw [if_pos hlt]
  simp only [hi, hinstr]
  rw [if_neg hrange]

/-!  ## C5: termination -/

/-- The state reached after the first two dispatches of the closure walk
on the cycle program: heads `[0, 1]` recorded, current pointer 2. -/
theorem cycle_first_two_steps (f : Nat) :
    addLoop cycleInstrs (f + 2) (some 0) [] WorkQueue.empty =
      addLoop cycleInstrs f (some 2) [] ⟨[0, 1], false⟩ := rfl

theorem cycle_step2 (f : Nat) (s : List Nat) :
    addLoop cycleInstrs (f + 1) (some 2) s ⟨[0, 1], false⟩ =
      addLoop cycleInstrs f (some 5) (3 :: s) ⟨[0, 1], false⟩ := rfl

theorem cycle_step5 (f : Nat) (s : List Nat) :
    addLoop cycleInstrs (f + 1) (some 5) s ⟨[0, 1], false⟩ =
      addLoop cycleInstrs f (some 2) (6 :: s) ⟨[0, 1], false⟩ := rfl

/-- The two `"+"`-indicator `Nop`s at prepended indices 2 and 5 bounce
the current pointer back and forth for ever: neither is a sublist head
(each predecessor carries `"+"`), so the duplicate guard never fires and
the walk exhausts any amount of fuel. -/
theorem cycle_no_fuel : ∀ (fuel : Nat) (s : List Nat),
    addLoop cycleInstrs fuel (some 2) s ⟨[0, 1], false⟩ = none ∧
    addLoop cycleInstrs fuel (some 5) s ⟨[0, 1], false⟩ = none := by
  intro fuel
  induction fuel with
  | zero => intro s; exact ⟨rfl, rfl⟩
  | succ f ih =>
    intro s
    constructor
    · rw [cycle_step2 f s]; exact (ih (3 :: s)).2
    · rw [cycle_step5 f s]; exact (ih (6 :: s)).1

theorem cycle_add_none : ∀ fuel : Nat,
    addLoop cycleInstrs fuel (some 0) [] WorkQueue.empty = none := by
  intro fuel
  match fuel with
  | 0 => rfl
  | 1 => rfl
  | (f + 2) => rw [cycle_first_two_steps f]; exact (cycle_no_fuel f []).1

/-- C5 counterexample: `cycleProg` satisfies the structural invariants of
§3 (all jump targets valid, every sublist a run of `"+"` members closed
by a `"."` `ByteRange` or `Match`), yet `run` never terminates on it —
no amount of fuel makes the embedded run produce any outcome, even on
empty input: the closure walk loops during initialization. -/
theorem run_cycleProg_never_terminates :
    ¬ ∃ (fuel : Nat) (r : Except Err (Option Nat)), runVM fuel cycleProg [] = some r := by
  rintro ⟨fuel, r, h⟩
  rw [runVM_unfold] at h
  rw [show (Instruction.instrNop .last 1 :: cycleProg) = cycleInstrs from rfl] at h
  have hnone : WorkQueue.empty.add cycleInstrs fuel 0 = none := cycle_add_none fuel
  rw [hnone] at h
  cases h

/-- C5 amended: the duplicate guard does make closure construction (and
the whole engine) terminate on the self-referential `a*` encoding, whose
epsilon cycle passes through a recorded sublist head (first conjunct:
the run completes, consuming all three bytes), and a program requiring
the specific byte 0x61 terminates with the no-match result `None` on
every input that never supplies an in-range byte (second conjunct); but,
per the counterexample, this does not extend to every §3-valid program. -/
theorem aStar_terminates_and_byte_prog_no_match :
    runVM 30 aStarProg [97, 97, 97] = some (.ok (some 3)) ∧
    (∀ input : List Nat, (∀ c ∈ input, ¬(97 ≤ c ∧ c ≤ 97)) →
      runVM 30 progA input = some (.ok none)) := by
  constructor
  · rfl
  · intro input hc
    cases input with
    | nil => rfl
    | cons c rest =>
      have hcr : ¬(97 ≤ c ∧ c ≤ 97) := hc c (List.mem_cons_self c rest)
      show runLoop (Instruction.instrNop .last 1 :: progA) 30 ⟨[0, 1], false⟩ 0
          (c :: rest) none = some (.ok none)
      rw [runLoop_cons (show WorkQueue.is_empty ⟨[0, 1], false⟩ = false from rfl)]
      have hstep : runOnByte (Instruction.instrNop .last 1 :: progA)
          (WorkQueue.to_list ⟨[0, 1], false⟩) WorkQueue.empty c 30 =
          some (.ok WorkQueue.empty) := by
        show runOnByteLoop (Instruction.instrNop .last 1 :: progA) [0, 1] c 30 0
            WorkQueue.empty = some (.ok WorkQueue.empty)
        have h1 : runOnByteLoop (Instruction.instrNop .last 1 :: progA) [0, 1] c 30 0
            WorkQueue.empty =
            runOnByteLoop (Instruction.instrNop .last 1 :: progA) [0, 1] c 29 1
              WorkQueue.empty := rfl
        rw [h1, runOnByteLoop_byteRange_skip
          (show pyNth [0, 1] 1 = .ok 1 from rfl)
          (show 1 < ([0, 1] : List Nat).length by norm_num)
          (show pyNth (Instruction.instrNop .last 1 :: progA) 1 =
            .ok (.instrByteRange .last 97 97 0 2) from rfl) hcr]
        rfl
      rw [hstep]
      show runLoop (Instruction.instrNop .last 1 :: progA) 30 WorkQueue.empty 1 rest none =
        some (.ok none)
      exact runLoop_of_empty (show WorkQueue.is_empty WorkQueue.empty = true from rfl)

/-- C5 witness: the byte-requiring program terminates with `None` on the
single out-of-range byte 0x62. -/
theorem aStar_terminates_and_byte_prog_no_match_witness :
    runVM 30 progA [98] = some (.ok none) :=
  aStar_terminates_and_byte_prog_no_match.2 [98] (by decide)

/-!  ## C8: the sequence of recorded best-match ends -/

theorem runLoopTrace_of_empty {instrs : List Instruction} {fuel : Nat} {q : WorkQueue}
    {sp : Nat} {remaining : List Nat} {last : Option Nat} (he : q.is_empty = true) :
    runLoopTrace instrs fuel q sp remaining last = some (.ok (last, [])) := by
  rw [runLoopTrace.eq_def, if_pos he]

theorem runLoopTrace_nil {instrs : List Instruction} {fuel : Nat} {q : WorkQueue}
    {sp : Nat} {last : Option Nat} :
    runLoopTrace instrs fuel q sp [] last = some (.ok (last, [])) := by
  rw [runLoopTrace.eq_def]
  split
  · rfl
  · rfl

theorem runLoopTrace_cons {instrs : List Instruction} {fuel : Nat} {q : WorkQueue}
    {sp c : Nat} {rest : List Nat} {last : Option Nat} (hne : q.is_empty = false) :
    runLoopTrace instrs fuel q sp (c :: rest) last =
      (match runOnByte instrs q.to_list WorkQueue.empty c fuel with
       | none => none
       | some (.error e) => some (.error e)
       | some (.ok nq) =>
         if nq.contains_InstrMatch then
           match runLoopTrace instrs fuel nq (sp + 1) rest (some (sp + 1)) with
           | none => none
           | some (.error e) => some (.error e)
           | some (.ok (res, tr)) => some (.ok (res, (sp + 1) :: tr))
         else runLoopTrace instrs fuel nq (sp + 1) rest last) := by
  rw [runLoopTrace.eq_def, hne]
  rfl

/-- The ghost trace is purely observational: projecting it away gives
back `runLoop`. -/
theorem runLoopTrace_fst {instrs : List Instruction} {fuel : Nat} :
    ∀ (remaining : List Nat) (q : WorkQueue) (sp : Nat) (last : Option Nat)
      (res : Option Nat) (tr : List Nat),
    runLoopTrace instrs fuel q sp remaining last = some (.ok (res, tr)) →
    runLoop instrs fuel q sp remaining last = some (.ok res) := by
  intro remaining
  induction remaining with
  | nil =>
    intro q sp last res tr h
    rw [runLoopTrace_nil] at h
    simp only [Option.some.injEq, Except.ok.injEq, Prod.mk.injEq] at h
    obtain ⟨rfl, rfl⟩ := h
    exact runLoop_nil
  | cons c rest ih =>
    intro q sp last res tr h
    by_cases hq : q.is_empty
    · rw [runLoopTrace_of_empty hq] at h
      simp only [Option.some.injEq, Except.ok.injEq, Prod.mk.injEq] at h
      obtain ⟨rfl, rfl⟩ := h
      exact runLoop_of_empty hq
    · have hq' : q.is_empty = false := by revert hq; cases q.is_empty <;> simp
      rw [runLoopTrace_cons hq'] at h
      rw [runLoop_cons hq']
      cases hrb : runOnByte instrs q.to_list WorkQueue.empty c fuel with
      | none => simp [hrb] at h
      | some exc =>
        cases exc with
        | error e => simp [hrb] at h
        | ok nq =>
          simp only [hrb] at h
          simp only []
          by_cases hf : nq.contains_InstrMatch
          · rw [if_pos hf] at h ⊢
            cases ht : runLoopTrace instrs fuel nq (sp + 1) rest (some (sp + 1)) with
            | none => simp [ht] at h
            | some exc2 =>
              cases exc2 with
              | error e => simp [ht] at h
              | ok p =>
                obtain ⟨res2, tr2⟩ := p
                simp only [ht, Option.some.injEq, Except.ok.injEq, Prod.mk.injEq] at h
                obtain ⟨rfl, rfl⟩ := h
                exact ih _ _ _ _ _ ht
          · rw [if_neg hf] at h ⊢
            exact ih _ _ _ _ _ h

/-- Every value recorded by the driver loop lies strictly between the
entry position and the final position, the recordings strictly increase,
and the result is bounded by the available input. -/
theorem runLoopTrace_spec {instrs : List Instruction} {fuel : Nat} :
    ∀ (remaining : List Nat) (q : WorkQueue) (sp : Nat) (last : Option Nat)
      (res : Option Nat) (tr : List Nat),
    runLoopTrace instrs fuel q sp remaining last = some (.ok (res, tr)) →
    (∀ x ∈ tr, sp < x ∧ x ≤ sp + remaining.length) ∧
    List.Chain' (· < ·) tr ∧
    ((∀ m, last = some m → m ≤ sp) → ∀ n, res = some n → n ≤ sp + remaining.length) := by
  intro remaining
  induction remaining with
  | nil =>
    intro q sp last res tr h
    rw [runLoopTrace_nil] at h
    simp only [Option.some.injEq, Except.ok.injEq, Prod.mk.injEq] at h
    obtain ⟨rfl, rfl⟩ := h
    refine ⟨fun x hx => absurd hx (List.not_mem_nil x), List.chain'_nil, ?_⟩
    intro hlast n hn
    exact le_trans (hlast n hn) (Nat.le_add_right sp 0)
  | cons c rest ih =>
    intro q sp last res tr h
    by_cases hq : q.is_empty
    · rw [runLoopTrace_of_empty hq] at h
      simp only [Option.some.injEq, Except.ok.injEq, Prod.mk.injEq] at h
      obtain ⟨rfl, rfl⟩ := h
      refine ⟨fun x hx => absurd hx (List.not_mem_nil x), List.chain'_nil, ?_⟩
      intro hlast n hn
      exact le_trans (hlast n hn) (Nat.le_add_right sp _)
    · have hq' : q.is_empty = false := by revert hq; cases q.is_empty <;> simp
      rw [runLoopTrace_cons hq'] at h
      cases hrb : runOnByte instrs q.to_list WorkQueue.empty c fuel with
      | none => simp [hrb] at h
      | some exc =>
        cases exc with
        | error e => simp [hrb] at h
        | ok nq =>
          simp only [hrb] at h
          by_cases hf : nq.contains_InstrMatch
          · rw [if_pos hf] at h
            cases ht : runLoopTrace instrs fuel nq (sp + 1) rest (some (sp + 1)) with
            | none => simp [ht] at h
            | some exc2 =>
              cases exc2 with
              | error e => simp [ht] at h
              | ok p =>
                obtain ⟨res2, tr2⟩ := p
                simp only [ht, Option.some.injEq, Except.ok.injEq, Prod.mk.injEq] at h
                obtain ⟨rfl, rfl⟩ := h
                obtain ⟨hmem, hchain, hbound⟩ := ih _ _ _ _ _ ht
                refine ⟨?_, ?_, ?_⟩
                · intro x hx
                  rcases List.mem_cons.mp hx with rfl | hx'
                  · refine ⟨Nat.lt_succ_self sp, ?_⟩
                    simp only [List.length_cons]
                    omega
                  · obtain ⟨h1, h2⟩ := hmem x hx'
                    refine ⟨lt_trans (Nat.lt_succ_self sp) h1, ?_⟩
                    simp only [List.length_cons]
                    omega
                · refine List.chain'_cons'.mpr ⟨?_, hchain⟩
                  intro y hy
                  exact (hmem y (List.mem_of_mem_head? hy)).1
                · intro _ n hn
                  have hb := hbound (fun m hm => by injection hm with hm; omega) n hn
                  simp only [List.length_cons]
                  omega
          · rw [if_neg hf] at h
            obtain ⟨hmem, hchain, hbound⟩ := ih _ _ _ _ _ h
            refine ⟨?_, hchain, ?_⟩
            · intro x hx
              obtain ⟨h1, h2⟩ := hmem x hx
              refine ⟨lt_trans (Nat.lt_succ_self sp) h1, ?_⟩
              simp only [List.length_cons]
              omega
            · intro hlast n hn
              have hb := hbound (fun m hm => le_trans (hlast m hm) (Nat.le_succ sp)) n hn
              simp only [List.length_cons]
              omega

theorem runVMTrace_unfold {fuel : Nat} {prog : List Instruction} {input : List Nat} :
    runVMTrace fuel prog input =
      (match WorkQueue.empty.add (Instruction.instrNop .last 1 :: prog) fuel 0 with
       | none => none
       | some (.error e) => some (.error e)
       | some (.ok q) =>
         match runLoopTrace (Instruction.instrNop .last 1 :: prog) fuel q 0 input
             (if q.contains_InstrMatch then some 0 else none) with
         | none => none
         | some (.error e) => some (.error e)
         | some (.ok (res, tr)) =>
           some (.ok (res, (if q.contains_InstrMatch then [0] else []) ++ tr))) := rfl

/-- C8 amended: for any normally-terminating run, the sequence of
recorded best-match-end values is strictly increasing (a recording of 0
happens exactly when the initial closure's match flag is set; later
updates record the strictly larger current position), and any returned
match end is at most the input length; the trace projects onto the
untraced `run`, which returns the same result. -/
theorem run_trace_strictly_increasing (fuel : Nat) (prog : List Instruction)
    (input : List Nat) (res : Option Nat) (tr : List Nat)
    (h : runVMTrace fuel prog input = some (.ok (res, tr))) :
    List.Chain' (· < ·) tr ∧
    (∀ n, res = some n → n ≤ input.length) ∧
    runVM fuel prog input = some (.ok res) := by
  rw [runVMTrace_unfold] at h
  cases hadd : WorkQueue.empty.add (Instruction.instrNop .last 1 :: prog) fuel 0 with
  | none => simp [hadd] at h
  | some exc =>
    cases exc with
    | error e => simp [hadd] at h
    | ok q =>
      simp only [hadd] at h
      rw [runVM_unfold, hadd]
      by_cases hf : q.contains_InstrMatch
      · simp only [if_pos hf] at h
        cases ht : runLoopTrace (Instruction.instrNop .last 1 :: prog) fuel q 0 input
            (some 0) with
        | none => simp [ht] at h
        | some exc2 =>
          cases exc2 with
          | error e => simp [ht] at h
          | ok p =>
            obtain ⟨res2, tr2⟩ := p
            simp only [ht, Option.some.injEq, Except.ok.injEq, Prod.mk.injEq] at h
            obtain ⟨rfl, rfl⟩ := h
            obtain ⟨hmem, hchain, hbound⟩ := runLoopTrace_spec input q 0 (some 0) _ tr2 ht
            refine ⟨?_, ?_, ?_⟩
            · simp only [List.singleton_append]
              refine List.chain'_cons'.mpr ⟨?_, hchain⟩
              intro y hy
              exact (hmem y (List.mem_of_mem_head? hy)).1
            · intro n hn
              have hb := hbound (fun m hm => by injection hm with hm; omega) n hn
              omega
            · show runLoop (Instruction.instrNop .last 1 :: prog) fuel q 0 input
                (if q.contains_InstrMatch then some 0 else none) = _
              rw [if_pos hf]
              exact runLoopTrace_fst _ _ _ _ _ _ ht
      · simp only [if_neg hf] at h
        cases ht : runLoopTrace (Instruction.instrNop .last 1 :: prog) fuel q 0 input
            none with
        | none => simp [ht] at h
        | some exc2 =>
          cases exc2 with
          | error e => simp [ht] at h
          | ok p =>
            obtain ⟨res2, tr2⟩ := p
            simp only [ht, Option.some.injEq, Except.ok.injEq, Prod.mk.injEq] at h
            obtain ⟨rfl, rfl⟩ := h
            obtain ⟨hmem, hchain, hbound⟩ := runLoopTrace_spec input q 0 none _ tr2 ht
            refine ⟨by simpa using hchain, ?_, ?_⟩
            · intro n hn
              have hb := hbound (fun m hm => by cases hm) n hn
              omega
            · show runLoop (Instruction.instrNop .last 1 :: prog) fuel q 0 input
                (if q.contains_InstrMatch then some 0 else none) = _
              rw [if_neg hf]
              exact runLoopTrace_fst _ _ _ _ _ _ ht

/-- C8 counterexample: for the single-byte program on input "a" the only
recorded best-match-end is 1, so the first recorded value is not
position 0: the initial closure has no match, and the first (and only)
recording happens after the byte is consumed. -/
theorem first_recording_not_zero :
    runVMTrace 30 progA [97] = some (.ok (some 1, [1])) ∧ (1 : Nat) ≠ 0 :=
  ⟨rfl, by decide⟩

/-- C8 witness: instantiating the strict-increase theorem on the
single-byte program and input "a". -/
theorem run_trace_strictly_increasing_witness :
    List.Chain' (· < ·) [1] ∧
    (∀ n, (some 1 : Option Nat) = some n → n ≤ ([97] : List Nat).length) ∧
    runVM 30 progA [97] = some (.ok (some 1)) :=
  run_trace_strictly_increasing 30 progA [97] (some 1) [1] rfl
